import Mathlib

/-!
# Verification of the `text-editor` crate core

A shallow embedding of `crates/text-editor/src/lib.rs`.

Modelling conventions:
* The rope (`crop::Rope`) holds valid UTF-8 text, so it is modelled as a
  `List Char`; byte offsets are recovered through `Char.utf8Size`.
* `f32` quantities (pixel widths, font sizes, glyph advances) are modelled
  as `ℚ`.
* `crop` panics when an insert offset or a delete bound is not a char
  boundary; those operations return `Option`, with `none` standing for the
  panic.
* The glyph rasterizer trait is modelled as a function from a character and
  a font size to the glyph metrics.
-/

/-- Glyph layout information, from `GlyphMetrics` in the source.
Each pair is an `(x, y)` pair of `f32`s, modelled as rationals. -/
structure GlyphMetrics where
  advance : ℚ × ℚ
  size : ℚ × ℚ
  pos : ℚ × ℚ

/-- The `GlyphRasterizer` trait: `get_glyph(c, font_size) -> GlyphMetrics`. -/
def GlyphRasterizer : Type := Char → ℚ → GlyphMetrics

/-- The horizontal advance `get_glyph(c, font_size).advance.0` used by the
layout routines. -/
def advanceOf (m : GlyphRasterizer) (fs : ℚ) (c : Char) : ℚ :=
  (m c fs).advance.1

/-- `ScrollAmount` from the source. -/
inductive ScrollAmount where
  | Up (lines : ℕ)
  | Down (lines : ℕ)
  | ToStart
  | ToEnd

/-- The state of `TextEditor`.  The `ctrl_down` flag and the clipboard
handle play no role in any claim and are omitted. -/
structure TextEditor where
  content : List Char
  cursor_position : ℕ
  text_start_idx : ℕ
  font_size : ℚ
  window_width : ℚ
  window_height : ℚ
deriving DecidableEq

/-- `Rope::byte_len`: total number of UTF-8 bytes. -/
def byteLen (l : List Char) : ℕ := (l.map Char.utf8Size).sum

/-- Chars of `byte_slice(..n)`.  Exact when `n` is a char boundary;
off a boundary `crop` panics, here the split char is not included
(`c.utf8Size ≤ n` fails for `n = 0` since a char occupies at least one
byte, so `byteTake l 0 = []`). -/
def byteTake : List Char → ℕ → List Char
  | [], _ => []
  | c :: rest, n => if c.utf8Size ≤ n then c :: byteTake rest (n - c.utf8Size) else []

/-- Chars of `byte_slice(n..)`.  Exact when `n` is a char boundary;
off a boundary `crop` panics, here the split char is dropped. -/
def byteDrop : List Char → ℕ → List Char
  | [], _ => []
  | c :: rest, n => if n = 0 then c :: rest else byteDrop rest (n - c.utf8Size)

/-- `Rope::is_char_boundary`: `n` is `0`, or falls at the start of a
char of `l`. -/
def isCharBoundary : List Char → ℕ → Bool
  | [], n => n == 0
  | c :: rest, n =>
    if n = 0 then true
    else if n < c.utf8Size then false
    else isCharBoundary rest (n - c.utf8Size)

/-- `Rope::insert(offset, text)`: panics (`none`) off a char boundary. -/
def ropeInsert (l : List Char) (off : ℕ) (s : List Char) : Option (List Char) :=
  if isCharBoundary l off then some (byteTake l off ++ s ++ byteDrop l off) else none

/-- `Rope::delete(a..b)`: panics (`none`) unless `a ≤ b` and both bounds
are char boundaries. -/
def ropeDelete (l : List Char) (a b : ℕ) : Option (List Char) :=
  if a ≤ b ∧ isCharBoundary l a ∧ isCharBoundary l b then
    some (byteTake l a ++ byteDrop l b)
  else none

/-- `TextEditor::new(content, window_width, window_height, font_size)`. -/
def TextEditor.new (content : List Char) (w h fs : ℚ) : TextEditor :=
  { content := content
    cursor_position := 0
    text_start_idx := 0
    font_size := fs
    window_width := w
    window_height := h }

/-- The `line_height` local of `layout_lines`: `font_size * 1.2`. -/
def lineHeight (e : TextEditor) : ℚ := e.font_size * (6 / 5)

/-- The `for` loop of `layout_line`, iterating over the chars of
`content.byte_slice(start_index..)`.  `s` is the running absolute
`byte_index`, `x` the accumulated advance.  Returns
`(has_trailing_newline, end byte index of the line)`. -/
def layoutLineGo (m : GlyphRasterizer) (fs W : ℚ) : List Char → ℕ → ℚ → Bool × ℕ
  | [], s, _ => (false, s)
  | c :: rest, s, x =>
    if c = '\n' then (true, s)
    else if W ≤ x + advanceOf m fs c then (false, s)
    else layoutLineGo m fs W rest (s + c.utf8Size) (x + advanceOf m fs c)

/-- `TextEditor::layout_line(start_index)`.  The returned slice is
`content.byte_slice(start_index..result.2)`. -/
def TextEditor.layout_line (e : TextEditor) (m : GlyphRasterizer) (start : ℕ) : Bool × ℕ :=
  layoutLineGo m e.font_size e.window_width (byteDrop e.content start) start 0

/-- The `for` loop of `layout_line_rev`, iterating over the chars of
`content.byte_slice(..start_index)` in reverse.  `bi` is the running
`byte_index`, `x` the remaining width.  Returns the flag together with
the byte range `(lo, hi)` of the returned slice; `start` and `len` are
the `start_index` parameter and `content.byte_len()`. -/
def layoutLineRevGo (m : GlyphRasterizer) (fs : ℚ) (start len : ℕ) :
    List Char → ℕ → ℚ → Bool × ℕ × ℕ
  | [], _, _ => (false, start, len)
  | c :: rest, bi, x =>
    if c = '\n' ∧ bi = start then layoutLineRevGo m fs start len rest (bi - 1) x
    else if c = '\n' then (true, bi, start)
    else if x - advanceOf m fs c ≤ 0 then (false, bi, start)
    else layoutLineRevGo m fs start len rest (bi - c.utf8Size) (x - advanceOf m fs c)

/-- `TextEditor::layout_line_rev(start_index)`.  The result is the flag and
the byte range of the returned slice. -/
def TextEditor.layout_line_rev (e : TextEditor) (m : GlyphRasterizer) (start : ℕ) :
    Bool × ℕ × ℕ :=
  layoutLineRevGo m e.font_size start (byteLen e.content)
    ((byteTake e.content start).reverse) start e.window_width

/-- One iteration of the loop body of `layout_lines` acting on `byte_index`:
`byte_index += line.byte_len()`, then `+ 1` if the line has a trailing
newline. -/
def scrollDownStep (e : TextEditor) (m : GlyphRasterizer) (bi : ℕ) : ℕ :=
  let r := e.layout_line m bi
  (if r.1 then bi + 1 else bi) + (r.2 - bi)

/-- The loop of `scroll_down`: `lines` iterations of `scrollDownStep`. -/
def scrollDownN (e : TextEditor) (m : GlyphRasterizer) : ℕ → ℕ → ℕ
  | 0, bi => bi
  | k + 1, bi => scrollDownN e m k (scrollDownStep e m bi)

/-- `TextEditor::scroll_down(lines)`. -/
def TextEditor.scroll_down (e : TextEditor) (m : GlyphRasterizer) (lines : ℕ) : TextEditor :=
  { e with text_start_idx := scrollDownN e m lines e.text_start_idx }

/-- One iteration of the loop of `scroll_up`:
`byte_idx.saturating_sub(line.byte_len())` for the line computed by
`layout_line_rev`. -/
def scrollUpStep (e : TextEditor) (m : GlyphRasterizer) (bi : ℕ) : ℕ :=
  let r := e.layout_line_rev m bi
  bi - (r.2.2 - r.2.1)

/-- The loop of `scroll_up`: `lines` iterations of `scrollUpStep`. -/
def scrollUpN (e : TextEditor) (m : GlyphRasterizer) : ℕ → ℕ → ℕ
  | 0, bi => bi
  | k + 1, bi => scrollUpN e m k (scrollUpStep e m bi)

/-- `TextEditor::scroll_up(lines)`. -/
def TextEditor.scroll_up (e : TextEditor) (m : GlyphRasterizer) (lines : ℕ) : TextEditor :=
  { e with text_start_idx := scrollUpN e m lines e.text_start_idx }

/-- `TextEditor::scroll_to_start`. -/
def TextEditor.scroll_to_start (e : TextEditor) : TextEditor :=
  { e with text_start_idx := 0, cursor_position := 0 }

/-- `TextEditor::scroll_to_end`. -/
def TextEditor.scroll_to_end (e : TextEditor) (m : GlyphRasterizer) : TextEditor :=
  let bottom := byteLen e.content - 1
  TextEditor.scroll_up
    { e with text_start_idx := bottom, cursor_position := bottom } m 1

/-- `TextEditor::scroll(scroll, glyph_rasterizer)`. -/
def TextEditor.scroll (e : TextEditor) (m : GlyphRasterizer) : ScrollAmount → TextEditor
  | ScrollAmount.Up lines => e.scroll_up m lines
  | ScrollAmount.Down lines => e.scroll_down m lines
  | ScrollAmount.ToStart => e.scroll_to_start
  | ScrollAmount.ToEnd => e.scroll_to_end m

/-- The `loop` of `layout_lines`, with explicit fuel.  `y` is the
accumulated vertical extent, `bi` the running `byte_index`.  Each produced
line is the byte range plus the trailing-newline flag,
`(start, end, has_trailing_newline)`.  `none` models fuel exhaustion; the
source loop has no fuel bound and simply keeps running. -/
def layoutLinesGo (e : TextEditor) (m : GlyphRasterizer) :
    ℕ → ℚ → ℕ → Option (List (ℕ × ℕ × Bool))
  | 0, _, _ => none
  | fuel + 1, y, bi =>
    let r := e.layout_line m bi
    let bi2 := if r.1 then r.2 + 1 else r.2
    let y2 := y + lineHeight e
    if e.window_height ≤ y2 then some [(bi, r.2, r.1)]
    else (layoutLinesGo e m fuel y2 bi2).map (fun tl => (bi, r.2, r.1) :: tl)

/-- The number of iterations the `layout_lines` loop performs before
`y >= window_height` breaks it (exact when `0 < font_size`; the loop never
breaks when `line_height ≤ 0 < window_height`). -/
def layoutFuel (e : TextEditor) : ℕ :=
  max 1 (Int.toNat ⌈e.window_height / lineHeight e⌉)

/-- `TextEditor::layout_lines`, run with exactly the fuel the loop needs.
`layoutLinesGo_isSome` shows the fuel is never exhausted when
`0 < font_size`, so the `getD` default is dead code then. -/
def TextEditor.layout_lines (e : TextEditor) (m : GlyphRasterizer) : List (ℕ × ℕ × Bool) :=
  (layoutLinesGo e m (layoutFuel e) 0 e.text_start_idx).getD []

/-- `TextEditor::delete`. -/
def TextEditor.delete (e : TextEditor) : Option TextEditor :=
  let len := byteLen e.content
  if len = 0 ∨ len < e.cursor_position + 1 then some e
  else
    (ropeDelete e.content e.cursor_position (e.cursor_position + 1)).map
      (fun c => { e with content := c })

/-- The boundary-scanning loop of `backspace`: the greatest char boundary
`< p` (for `p > 0`).  The source computes this into `curr_pos` and then
never uses it. -/
def prevCharBoundary (l : List Char) : ℕ → ℕ
  | 0 => 0
  | p + 1 => if isCharBoundary l p then p else prevCharBoundary l p

/-- `TextEditor::backspace`.  The source deletes
`cursor_position - 1 .. cursor_position` — one byte — and ignores the
boundary computed by its scan loop. -/
def TextEditor.backspace (e : TextEditor) : Option TextEditor :=
  let len := byteLen e.content
  if len = 0 ∨ e.cursor_position = 0 then some e
  else
    (ropeDelete e.content (e.cursor_position - 1) e.cursor_position).map
      (fun c => { e with content := c, cursor_position := e.cursor_position - 1 })

/-- `TextEditor::insert_text`.  `bytes_to_advance` is the sum of
`len_utf8` over the chars of `text`. -/
def TextEditor.insert_text (e : TextEditor) (s : List Char) : Option TextEditor :=
  (ropeInsert e.content e.cursor_position s).map
    (fun c => { e with content := c, cursor_position := e.cursor_position + byteLen s })

/-- The accumulated horizontal advance of a list of chars. -/
def sumAdv (m : GlyphRasterizer) (fs : ℚ) (l : List Char) : ℚ :=
  (l.map (advanceOf m fs)).sum

/-- The characters of one produced line `(start, end, has_trailing_newline)`
of `layout_lines`, together with the newline byte consumed after it (if
any), as the round-trip property re-inserts it. -/
def lineChars (content : List Char) (L : ℕ × ℕ × Bool) : List Char :=
  byteTake (byteDrop content L.1) (L.2.1 - L.1) ++ (if L.2.2 then ['\n'] else [])

/-- Concatenation of all lines of a `layout_lines` result, with one
newline re-inserted per newline-terminated line. -/
def reconstruct (content : List Char) (lines : List (ℕ × ℕ × Bool)) : List Char :=
  (lines.map (lineChars content)).flatten

/-- An editing step of the public interface: `insert_text` or `scroll`.
(`backspace` and `delete` are treated separately; they can invalidate the
viewport anchor.) -/
inductive EditOp where
  | insert (s : List Char)
  | scrollBy (a : ScrollAmount)

/-- Run one `EditOp`; `none` models a `crop` panic inside `insert_text`. -/
def applyOp (m : GlyphRasterizer) (e : TextEditor) : EditOp → Option TextEditor
  | EditOp.insert s => e.insert_text s
  | EditOp.scrollBy a => some (e.scroll m a)

/-- Run a sequence of `EditOp`s. -/
def applyOps (m : GlyphRasterizer) : TextEditor → List EditOp → Option TextEditor
  | e, [] => some e
  | e, op :: ops => (applyOp m e op).bind (fun e2 => applyOps m e2 ops)

/-- A synthetic fixed-width rasterizer: every glyph has horizontal
advance 1. -/
def m1 : GlyphRasterizer := fun _ _ => ⟨(1, 0), (0, 0), (0, 0)⟩

/-! ### Byte-level list lemmas -/

theorem byteLen_nil : byteLen [] = 0 := rfl

theorem byteLen_cons (c : Char) (l : List Char) :
    byteLen (c :: l) = c.utf8Size + byteLen l := by
  simp [byteLen]

theorem byteLen_append (a b : List Char) :
    byteLen (a ++ b) = byteLen a + byteLen b := by
  simp [byteLen]

theorem byteLen_eq_zero {l : List Char} : byteLen l = 0 ↔ l = [] := by
  cases l with
  | nil => simp [byteLen]
  | cons c l =>
    simp only [byteLen_cons]
    have := Char.utf8Size_pos c
    constructor
    · intro h; omega
    · intro h; exact absurd h (List.cons_ne_nil c l)

theorem byteLen_pos {l : List Char} (h : l ≠ []) : 0 < byteLen l := by
  rcases Nat.eq_zero_or_pos (byteLen l) with h0 | h0
  · exact absurd (byteLen_eq_zero.mp h0) h
  · exact h0

theorem byteTake_append (a b : List Char) : byteTake (a ++ b) (byteLen a) = a := by
  induction a with
  | nil =>
    cases b with
    | nil => rfl
    | cons c l =>
      show byteTake (c :: l) 0 = []
      have := Char.utf8Size_pos c
      simp [byteTake]
      omega
  | cons c a ih =>
    show byteTake (c :: (a ++ b)) (byteLen (c :: a)) = c :: a
    rw [byteLen_cons]
    have hpos := Char.utf8Size_pos c
    simp only [byteTake, if_pos (Nat.le_add_right _ _), Nat.add_sub_cancel_left]
    exact congrArg (c :: ·) ih

theorem byteDrop_append (a b : List Char) : byteDrop (a ++ b) (byteLen a) = b := by
  induction a with
  | nil =>
    cases b with
    | nil => rfl
    | cons c l => show byteDrop (c :: l) 0 = c :: l; simp [byteDrop]
  | cons c a ih =>
    show byteDrop (c :: (a ++ b)) (byteLen (c :: a)) = b
    rw [byteLen_cons]
    have hpos := Char.utf8Size_pos c
    have hne : c.utf8Size + byteLen a ≠ 0 := by omega
    simp only [byteDrop, if_neg hne, Nat.add_sub_cancel_left]
    exact ih

theorem byteDrop_zero (l : List Char) : byteDrop l 0 = l := by
  cases l with
  | nil => rfl
  | cons c l => simp [byteDrop]

theorem byteTake_all (l : List Char) : byteTake l (byteLen l) = l := by
  have := byteTake_append l []
  rwa [List.append_nil] at this

theorem isCharBoundary_append (a b : List Char) :
    isCharBoundary (a ++ b) (byteLen a) = true := by
  induction a with
  | nil =>
    cases b with
    | nil => rfl
    | cons c l => show isCharBoundary (c :: l) 0 = true; simp [isCharBoundary]
  | cons c a ih =>
    show isCharBoundary (c :: (a ++ b)) (byteLen (c :: a)) = true
    rw [byteLen_cons]
    have hpos := Char.utf8Size_pos c
    have hne : c.utf8Size + byteLen a ≠ 0 := by omega
    have hnlt : ¬ (c.utf8Size + byteLen a < c.utf8Size) := by omega
    simp only [isCharBoundary, if_neg hne, if_neg hnlt, Nat.add_sub_cancel_left]
    exact ih

theorem isCharBoundary_len (l : List Char) : isCharBoundary l (byteLen l) = true := by
  have := isCharBoundary_append l []
  rwa [List.append_nil] at this

theorem isCharBoundary_split {l : List Char} {n : ℕ}
    (h : isCharBoundary l n = true) : ∃ a b, l = a ++ b ∧ n = byteLen a := by
  induction l generalizing n with
  | nil =>
    refine ⟨[], [], rfl, ?_⟩
    simpa [isCharBoundary] using h
  | cons c l ih =>
    by_cases h0 : n = 0
    · exact ⟨[], c :: l, rfl, by simp [h0, byteLen]⟩
    · simp only [isCharBoundary, if_neg h0] at h
      by_cases hlt : n < c.utf8Size
      · rw [if_pos hlt] at h; exact absurd h (by simp)
      · rw [if_neg hlt] at h
        obtain ⟨a, b, rfl, hn⟩ := ih h
        exact ⟨c :: a, b, rfl, by rw [byteLen_cons]; omega⟩

theorem byteLen_byteDrop_le (l : List Char) (n : ℕ) :
    byteLen (byteDrop l n) ≤ byteLen l - n := by
  induction l generalizing n with
  | nil => simp [byteDrop, byteLen]
  | cons c l ih =>
    by_cases h0 : n = 0
    · simp [h0, byteDrop_zero]
    · have hpos := Char.utf8Size_pos c
      simp only [byteDrop, if_neg h0, byteLen_cons]
      calc byteLen (byteDrop l (n - c.utf8Size)) ≤ byteLen l - (n - c.utf8Size) := ih _
        _ ≤ c.utf8Size + byteLen l - n := by omega

/-! ### Characterization of the forward line scan -/

/-- `layoutLineGo` stops at the first newline, at the end of the list, or
at the first char that would meet or exceed the width; in each case the
returned index is the start plus the byte length of the consumed chars. -/
theorem layoutLineGo_split (m : GlyphRasterizer) (fs W : ℚ) (l : List Char) (s : ℕ) (x : ℚ) :
    (∃ a b, l = a ++ '\n' :: b ∧
      layoutLineGo m fs W l s x = (true, s + byteLen a)) ∨
    (layoutLineGo m fs W l s x = (false, s + byteLen l)) ∨
    (∃ a c b, l = a ++ c :: b ∧ c ≠ '\n' ∧
      W ≤ x + sumAdv m fs a + advanceOf m fs c ∧
      layoutLineGo m fs W l s x = (false, s + byteLen a)) := by
  induction l generalizing s x with
  | nil => exact Or.inr (Or.inl (by simp [layoutLineGo, byteLen_nil]))
  | cons c l ih =>
    by_cases hc : c = '\n'
    · subst hc
      exact Or.inl ⟨[], l, rfl, by simp [layoutLineGo, byteLen_nil]⟩
    · by_cases hw : W ≤ x + advanceOf m fs c
      · refine Or.inr (Or.inr ⟨[], c, l, rfl, hc, ?_, ?_⟩)
        · simpa [sumAdv] using hw
        · simp [layoutLineGo, if_neg hc, if_pos hw, byteLen_nil]
      · have hgo : layoutLineGo m fs W (c :: l) s x =
            layoutLineGo m fs W l (s + c.utf8Size) (x + advanceOf m fs c) := by
          simp [layoutLineGo, if_neg hc, if_neg hw]
        rcases ih (s + c.utf8Size) (x + advanceOf m fs c) with
          ⟨a, b, hl, heq⟩ | heq | ⟨a, c2, b, hl, hc2, hW, heq⟩
        · refine Or.inl ⟨c :: a, b, by simp [hl], ?_⟩
          rw [hgo, heq, byteLen_cons]; ring_nf
        · refine Or.inr (Or.inl ?_)
          rw [hgo, heq, byteLen_cons]; ring_nf
        · refine Or.inr (Or.inr ⟨c :: a, c2, b, by simp [hl], hc2, ?_, ?_⟩)
          · calc W ≤ x + advanceOf m fs c + sumAdv m fs a + advanceOf m fs c2 := by
                  linarith [hW]
              _ = x + sumAdv m fs (c :: a) + advanceOf m fs c2 := by
                  simp [sumAdv]; ring
          · rw [hgo, heq, byteLen_cons]; ring_nf

/-- The end index returned by the forward scan is at least the start. -/
theorem layoutLineGo_ge (m : GlyphRasterizer) (fs W : ℚ) (l : List Char) (s : ℕ) (x : ℚ) :
    s ≤ (layoutLineGo m fs W l s x).2 := by
  rcases layoutLineGo_split m fs W l s x with
    ⟨a, b, _, heq⟩ | heq | ⟨a, c, b, _, _, _, heq⟩ <;> rw [heq] <;> omega

/-- The next `byte_index` after one `layout_lines` iteration (end of the
line, plus one for a consumed newline) stays within the scanned list. -/
theorem layoutLineGo_bound (m : GlyphRasterizer) (fs W : ℚ) (l : List Char) (s : ℕ) (x : ℚ) :
    (if (layoutLineGo m fs W l s x).1 then (layoutLineGo m fs W l s x).2 + 1
      else (layoutLineGo m fs W l s x).2) ≤ s + byteLen l := by
  rcases layoutLineGo_split m fs W l s x with
    ⟨a, b, hl, heq⟩ | heq | ⟨a, c, b, hl, _, _, heq⟩
  · rw [heq]
    have : byteLen l = byteLen a + 1 + byteLen b := by
      rw [hl, byteLen_append, byteLen_cons]
      have : ('\n').utf8Size = 1 := by decide
      omega
    simp only [if_pos]
    omega
  · rw [heq]; simp
  · rw [heq]
    have hc := Char.utf8Size_pos c
    have : byteLen l = byteLen a + c.utf8Size + byteLen b := by
      rw [hl, byteLen_append, byteLen_cons]; omega
    simp only [if_neg Bool.false_ne_true]
    omega

/-- If nothing in the list is a newline, every advance is nonnegative and
the total advance stays below the width, the forward scan consumes the
whole list. -/
theorem layoutLineGo_all (m : GlyphRasterizer) (fs W : ℚ) (l : List Char) (s : ℕ) (x : ℚ)
    (hnl : '\n' ∉ l) (hadv : ∀ c ∈ l, 0 ≤ advanceOf m fs c)
    (hsum : x + sumAdv m fs l < W) :
    layoutLineGo m fs W l s x = (false, s + byteLen l) := by
  induction l generalizing s x with
  | nil => simp [layoutLineGo, byteLen_nil]
  | cons c l ih =>
    have hc : c ≠ '\n' := fun h => hnl (h ▸ List.mem_cons_self c l)
    have hsa : 0 ≤ sumAdv m fs l := by
      have : ∀ q ∈ l.map (advanceOf m fs), 0 ≤ q := by
        intro q hq
        obtain ⟨d, hd, rfl⟩ := List.mem_map.mp hq
        exact hadv d (List.mem_cons_of_mem c hd)
      exact List.sum_nonneg this
    have hsumc : x + sumAdv m fs (c :: l) = x + advanceOf m fs c + sumAdv m fs l := by
      simp [sumAdv]; ring
    have hw : ¬ (W ≤ x + advanceOf m fs c) := by
      rw [hsumc] at hsum; linarith
    rw [layoutLineGo, if_neg hc, if_neg hw,
      ih (s + c.utf8Size) (x + advanceOf m fs c) (fun h => hnl (List.mem_cons_of_mem c h))
        (fun d hd => hadv d (List.mem_cons_of_mem c hd)) (by rw [hsumc] at hsum; linarith),
      byteLen_cons]
    ring_nf

/-! ### Boundaries of the reverse line scan -/

/-- Invariant of the backward scan: when the remaining reversed chars are
exactly the reverse of a prefix `P` of the content and `byte_index` is
`byteLen P`, every byte offset the scan can return is a char boundary of
the content.  (`start` must itself be a boundary for the newline-found and
width-stop returns.) -/
theorem layoutLineRevGo_boundary (m : GlyphRasterizer) (fs : ℚ) (content : List Char)
    (start : ℕ) (hs : isCharBoundary content start = true) :
    ∀ (r : List Char) (x : ℚ) (P Q : List Char), content = P ++ Q → r = P.reverse →
      isCharBoundary content
          (layoutLineRevGo m fs start (byteLen content) r (byteLen P) x).2.1 = true ∧
      isCharBoundary content
          (layoutLineRevGo m fs start (byteLen content) r (byteLen P) x).2.2 = true := by
  intro r
  induction r with
  | nil =>
    intro x P Q hPQ hr
    constructor
    · simpa [layoutLineRevGo] using hs
    · simpa [layoutLineRevGo] using isCharBoundary_len content
  | cons c rtl ih =>
    intro x P Q hPQ hr
    have hP : P = rtl.reverse ++ [c] := by
      have : P.reverse = c :: rtl := hr.symm
      calc P = P.reverse.reverse := (List.reverse_reverse P).symm
        _ = (c :: rtl).reverse := by rw [this]
        _ = rtl.reverse ++ [c] := by simp
    have hPlen : byteLen P = byteLen rtl.reverse + c.utf8Size := by
      rw [hP, byteLen_append, byteLen_cons, byteLen_nil]
      omega
    have hcontent2 : content = rtl.reverse ++ (c :: Q) := by
      rw [hPQ, hP]; simp
    have hbP : isCharBoundary content (byteLen P) = true := by
      rw [hPQ]; exact isCharBoundary_append P Q
    by_cases hski : c = '\n' ∧ byteLen P = start
    · have h1 : ('\n').utf8Size = 1 := by decide
      have : byteLen P - 1 = byteLen rtl.reverse := by
        rw [hPlen, hski.1, h1]
        omega
      rw [layoutLineRevGo, if_pos hski, this]
      exact ih x rtl.reverse (c :: Q) hcontent2 (List.reverse_reverse rtl).symm
    · by_cases hnl : c = '\n'
      · rw [layoutLineRevGo, if_neg hski, if_pos hnl]
        exact ⟨hbP, hs⟩
      · by_cases hwd : x - advanceOf m fs c ≤ 0
        · rw [layoutLineRevGo, if_neg hski, if_neg hnl, if_pos hwd]
          exact ⟨hbP, hs⟩
        · have : byteLen P - c.utf8Size = byteLen rtl.reverse := by
            rw [hPlen]; omega
          rw [layoutLineRevGo, if_neg hski, if_neg hnl, if_neg hwd, this]
          exact ih (x - advanceOf m fs c) rtl.reverse (c :: Q) hcontent2
            (List.reverse_reverse rtl).symm

/-! ### Termination fuel for `layout_lines` -/

theorem lineHeight_pos {e : TextEditor} (hfs : 0 < e.font_size) : 0 < lineHeight e := by
  have : (0 : ℚ) < 6 / 5 := by norm_num
  exact mul_pos hfs this

theorem layoutFuel_spec (e : TextEditor) (hfs : 0 < e.font_size) :
    1 ≤ layoutFuel e ∧ e.window_height ≤ (layoutFuel e : ℚ) * lineHeight e := by
  have hlh := lineHeight_pos hfs
  refine ⟨Nat.le_max_left _ _, ?_⟩
  set q : ℚ := e.window_height / lineHeight e with hq
  have h1 : q ≤ (⌈q⌉ : ℚ) := Int.le_ceil q
  have h2 : (⌈q⌉ : ℚ) ≤ ((Int.toNat ⌈q⌉ : ℕ) : ℚ) := by
    have := Int.self_le_toNat ⌈q⌉
    exact_mod_cast this
  have h3 : ((Int.toNat ⌈q⌉ : ℕ) : ℚ) ≤ ((layoutFuel e : ℕ) : ℚ) := by
    have : Int.toNat ⌈q⌉ ≤ layoutFuel e := Nat.le_max_right _ _
    exact_mod_cast this
  have hqle : q ≤ (layoutFuel e : ℚ) := le_trans h1 (le_trans h2 h3)
  have := mul_le_mul_of_nonneg_right hqle (le_of_lt hlh)
  rwa [hq, div_mul_cancel₀ _ (ne_of_gt hlh)] at this

/-- With positive line height, `fuel` iterations suffice whenever
`y + fuel·lineHeight` reaches the window height: the loop breaks before
the fuel runs out. -/
theorem layoutLinesGo_isSome (e : TextEditor) (m : GlyphRasterizer) :
    ∀ (fuel : ℕ) (y : ℚ) (bi : ℕ), 1 ≤ fuel →
      e.window_height ≤ y + (fuel : ℚ) * lineHeight e →
      (layoutLinesGo e m fuel y bi).isSome = true := by
  intro fuel
  induction fuel with
  | zero => intro y bi h; omega
  | succ f ihf =>
    intro y bi _ hy
    rw [layoutLinesGo]
    by_cases hbrk : e.window_height ≤ y + lineHeight e
    · rw [if_pos hbrk]; rfl
    · rw [if_neg hbrk]
      have hf : 1 ≤ f := by
        rcases Nat.eq_zero_or_pos f with h0 | h0
        · exfalso
          rw [h0] at hy
          push_cast at hy
          exact hbrk (by linarith)
        · exact h0
      have hy2 : e.window_height ≤ (y + lineHeight e) + (f : ℚ) * lineHeight e := by
        push_cast at hy
        linarith
      have := ihf (y + lineHeight e) (if (e.layout_line m bi).1 then (e.layout_line m bi).2 + 1
        else (e.layout_line m bi).2) hf hy2
      simpa using this

/-- Each produced `layout_lines` run is a nonempty list. -/
theorem layoutLinesGo_ne_nil (e : TextEditor) (m : GlyphRasterizer) :
    ∀ (fuel : ℕ) (y : ℚ) (bi : ℕ) (lines : List (ℕ × ℕ × Bool)),
      layoutLinesGo e m fuel y bi = some lines → lines ≠ [] := by
  intro fuel
  induction fuel with
  | zero => intro y bi lines h; exact absurd h (by simp [layoutLinesGo])
  | succ f ihf =>
    intro y bi lines h
    rw [layoutLinesGo] at h
    by_cases hbrk : e.window_height ≤ y + lineHeight e
    · rw [if_pos hbrk] at h
      cases h
      simp
    · rw [if_neg hbrk] at h
      obtain ⟨tl, _, htl⟩ := Option.map_eq_some'.mp h
      rw [← htl]
      simp



/-! ### Round-trip reconstruction of `layout_lines` -/

theorem byteTake_zero (l : List Char) : byteTake l 0 = [] := by
  cases l with
  | nil => rfl
  | cons c l =>
    have := Char.utf8Size_pos c
    simp [byteTake]
    omega

theorem reconstruct_nil (content : List Char) : reconstruct content [] = [] := rfl

theorem reconstruct_cons (content : List Char) (L : ℕ × ℕ × Bool)
    (tl : List (ℕ × ℕ × Bool)) :
    reconstruct content (L :: tl) = lineChars content L ++ reconstruct content tl := by
  simp [reconstruct]

/-- If the break fires on this iteration while the tall-enough bound still
holds for `n` remaining bytes, then at most one byte remains. -/
theorem break_leaves_le_one {lh y H : ℚ} (hlh : 0 < lh) {n : ℕ} (_h1 : 1 ≤ n)
    (h2 : y + ((n : ℚ) - 1) * lh < H) (h3 : H ≤ y + lh) : n ≤ 1 := by
  by_contra hgt
  push_neg at hgt
  have h2n : (2 : ℚ) ≤ (n : ℚ) := by exact_mod_cast hgt
  nlinarith

/-- Core round-trip invariant: if the content splits as `done ++ rest`,
the running `byte_index` is `byteLen done`, every char advance is
nonnegative and below the window width, and the remaining vertical space
covers the remaining bytes, then the concatenation of the produced lines
(with their consumed newlines re-inserted) is exactly `rest`. -/
theorem layoutLinesGo_reconstruct (e : TextEditor) (m : GlyphRasterizer)
    (hadv : ∀ c ∈ e.content, 0 ≤ advanceOf m e.font_size c ∧
      advanceOf m e.font_size c < e.window_width)
    (hlh : 0 < lineHeight e) :
    ∀ (fuel : ℕ) (y : ℚ) (done rest : List Char) (lines : List (ℕ × ℕ × Bool)),
      e.content = done ++ rest →
      (1 ≤ byteLen rest →
        y + ((byteLen rest : ℚ) - 1) * lineHeight e < e.window_height) →
      layoutLinesGo e m fuel y (byteLen done) = some lines →
      reconstruct e.content lines = rest := by
  intro fuel
  induction fuel with
  | zero =>
    intro y done rest lines _ _ h
    exact absurd h (by simp [layoutLinesGo])
  | succ f ihf =>
    intro y done rest lines hsplit hy hgo
    have hdrop : byteDrop e.content (byteLen done) = rest := by
      rw [hsplit]; exact byteDrop_append done rest
    have hline : e.layout_line m (byteLen done) =
        layoutLineGo m e.font_size e.window_width rest (byteLen done) 0 := by
      rw [TextEditor.layout_line, hdrop]
    have hnl1 : ('\n').utf8Size = 1 := by decide
    simp only [layoutLinesGo] at hgo
    rcases layoutLineGo_split m e.font_size e.window_width rest (byteLen done) 0 with
      ⟨a, b, hl, heq⟩ | heq | ⟨a, c, b, hl, hcne, hW, heq⟩
    · -- stopped at a newline: rest = a ++ '\n' :: b
      rw [hline, heq] at hgo
      have hrest_len : byteLen rest = byteLen a + 1 + byteLen b := by
        rw [hl, byteLen_append, byteLen_cons, hnl1]
        omega
      have hLchars :
          lineChars e.content (byteLen done, byteLen done + byteLen a, true) = a ++ ['\n'] := by
        unfold lineChars
        simp only [Nat.add_sub_cancel_left, if_pos]
        rw [hdrop, hl, byteTake_append]
      by_cases hbrk : e.window_height ≤ y + lineHeight e
      · rw [if_pos hbrk] at hgo
        have hlines : lines = [(byteLen done, byteLen done + byteLen a, true)] :=
          (Option.some_inj.mp hgo).symm
        have h1 : 1 ≤ byteLen rest := by omega
        have hsmall := break_leaves_le_one hlh h1 (hy h1) hbrk
        have ha0 : byteLen a = 0 := by omega
        have hb0 : byteLen b = 0 := by omega
        have ha : a = [] := byteLen_eq_zero.mp ha0
        have hb : b = [] := byteLen_eq_zero.mp hb0
        rw [hlines, reconstruct_cons, reconstruct_nil, hLchars, ha, hl, ha, hb]
        simp
      · rw [if_neg hbrk] at hgo
        obtain ⟨tl, hgtl, hcons⟩ := Option.map_eq_some'.mp hgo
        have hdone2 : byteLen (done ++ a ++ ['\n']) = byteLen done + byteLen a + 1 := by
          rw [byteLen_append, byteLen_append, byteLen_cons, byteLen_nil, hnl1]
        have hsplit2 : e.content = (done ++ a ++ ['\n']) ++ b := by
          rw [hsplit, hl]; simp
        have hy2 : 1 ≤ byteLen b →
            (y + lineHeight e) + ((byteLen b : ℚ) - 1) * lineHeight e < e.window_height := by
          intro hb1
          have h1 : 1 ≤ byteLen rest := by omega
          have hmain := hy h1
          have hble : (byteLen b : ℚ) ≤ (byteLen rest : ℚ) - 1 := by
            have hn : byteLen b + 1 ≤ byteLen rest := by omega
            have := (Nat.cast_le (α := ℚ)).mpr hn
            push_cast at this
            linarith
          have := mul_le_mul_of_nonneg_right hble (le_of_lt hlh)
          nlinarith
        have hrec := ihf (y + lineHeight e) (done ++ a ++ ['\n']) b tl hsplit2 hy2
          (by rw [hdone2]; simpa using hgtl)
        rw [← hcons, reconstruct_cons, hLchars, hrec, hl]
        simp
    · -- consumed the whole remaining list
      rw [hline, heq] at hgo
      have hLchars :
          lineChars e.content (byteLen done, byteLen done + byteLen rest, false) = rest := by
        unfold lineChars
        simp only [Nat.add_sub_cancel_left, if_neg]
        rw [hdrop, byteTake_all]
        simp
      by_cases hbrk : e.window_height ≤ y + lineHeight e
      · rw [if_pos hbrk] at hgo
        have hlines : lines = [(byteLen done, byteLen done + byteLen rest, false)] :=
          (Option.some_inj.mp hgo).symm
        rw [hlines, reconstruct_cons, reconstruct_nil, hLchars]
        simp
      · rw [if_neg hbrk] at hgo
        obtain ⟨tl, hgtl, hcons⟩ := Option.map_eq_some'.mp hgo
        have hsplit2 : e.content = (done ++ rest) ++ [] := by rw [hsplit]; simp
        have hy2 : 1 ≤ byteLen ([] : List Char) →
            (y + lineHeight e) + ((byteLen ([] : List Char) : ℚ) - 1) * lineHeight e <
              e.window_height := by
          intro h
          rw [byteLen_nil] at h
          omega
        have hrec := ihf (y + lineHeight e) (done ++ rest) [] tl hsplit2 hy2
          (by rw [byteLen_append]; simpa using hgtl)
        rw [← hcons, reconstruct_cons, hLchars, hrec]
        simp
    · -- stopped at the width limit before char c
      rw [hline, heq] at hgo
      have hcmem : c ∈ e.content := by
        rw [hsplit, hl]; simp
      have ha : a ≠ [] := by
        intro h0
        rw [h0] at hW
        have hz : sumAdv m e.font_size ([] : List Char) = 0 := by simp [sumAdv]
        rw [hz] at hW
        have := (hadv c hcmem).2
        linarith
      have hapos : 1 ≤ byteLen a := byteLen_pos ha
      have hcpos := Char.utf8Size_pos c
      have hrest_len : byteLen rest = byteLen a + c.utf8Size + byteLen b := by
        rw [hl, byteLen_append, byteLen_cons]
        omega
      have hLchars :
          lineChars e.content (byteLen done, byteLen done + byteLen a, false) = a := by
        unfold lineChars
        simp only [Nat.add_sub_cancel_left, if_neg]
        rw [hdrop, hl, byteTake_append]
        simp
      by_cases hbrk : e.window_height ≤ y + lineHeight e
      · exfalso
        have h1 : 1 ≤ byteLen rest := by omega
        have hsmall := break_leaves_le_one hlh h1 (hy h1) hbrk
        omega
      · rw [if_neg hbrk] at hgo
        obtain ⟨tl, hgtl, hcons⟩ := Option.map_eq_some'.mp hgo
        have hsplit2 : e.content = (done ++ a) ++ (c :: b) := by
          rw [hsplit, hl]; simp
        have hy2 : 1 ≤ byteLen (c :: b) →
            (y + lineHeight e) + ((byteLen (c :: b) : ℚ) - 1) * lineHeight e <
              e.window_height := by
          intro hcb
          have h1 : 1 ≤ byteLen rest := by omega
          have hmain := hy h1
          have hble : (byteLen (c :: b) : ℚ) ≤ (byteLen rest : ℚ) - 1 := by
            have hn : byteLen (c :: b) + 1 ≤ byteLen rest := by
              rw [byteLen_cons]
              omega
            have := (Nat.cast_le (α := ℚ)).mpr hn
            push_cast at this
            linarith
          have := mul_le_mul_of_nonneg_right hble (le_of_lt hlh)
          nlinarith
        have hrec := ihf (y + lineHeight e) (done ++ a) (c :: b) tl hsplit2 hy2
          (by rw [byteLen_append]; simpa using hgtl)
        rw [← hcons, reconstruct_cons, hLchars, hrec, hl]

/-! ### The viewport anchor stays within the buffer under insert and scroll -/

theorem scrollDownStep_le (e : TextEditor) (m : GlyphRasterizer) (bi : ℕ)
    (h : bi ≤ byteLen e.content) : scrollDownStep e m bi ≤ byteLen e.content := by
  have hge := layoutLineGo_ge m e.font_size e.window_width (byteDrop e.content bi) bi 0
  have hb := layoutLineGo_bound m e.font_size e.window_width (byteDrop e.content bi) bi 0
  have hdl := byteLen_byteDrop_le e.content bi
  unfold scrollDownStep TextEditor.layout_line
  cases h1 : (layoutLineGo m e.font_size e.window_width (byteDrop e.content bi) bi 0).1 with
  | true => simp only [h1, if_pos] at hb ⊢; omega
  | false => simp [h1] at hb ⊢; omega

theorem scrollDownN_le (e : TextEditor) (m : GlyphRasterizer) :
    ∀ (k bi : ℕ), bi ≤ byteLen e.content → scrollDownN e m k bi ≤ byteLen e.content := by
  intro k
  induction k with
  | zero => intro bi h; exact h
  | succ k ih => intro bi h; exact ih _ (scrollDownStep_le e m bi h)

theorem scrollUpN_le (e : TextEditor) (m : GlyphRasterizer) :
    ∀ (k bi : ℕ), scrollUpN e m k bi ≤ bi := by
  intro k
  induction k with
  | zero => intro bi; exact Nat.le_refl bi
  | succ k ih =>
    intro bi
    calc scrollUpN e m (k + 1) bi = scrollUpN e m k (scrollUpStep e m bi) := rfl
      _ ≤ scrollUpStep e m bi := ih _
      _ ≤ bi := Nat.sub_le _ _

/-- `insert_text` and every `scroll` variant keep the anchor at or below
the buffer length. -/
theorem applyOp_anchor_le (m : GlyphRasterizer) (e e2 : TextEditor) (op : EditOp)
    (h : e.text_start_idx ≤ byteLen e.content) (happ : applyOp m e op = some e2) :
    e2.text_start_idx ≤ byteLen e2.content := by
  cases op with
  | insert s =>
    simp only [applyOp, TextEditor.insert_text, ropeInsert] at happ
    by_cases hcb : isCharBoundary e.content e.cursor_position = true
    · rw [if_pos hcb] at happ
      simp only [Option.map_some', Option.some.injEq] at happ
      obtain ⟨a, b, hab, hcur⟩ := isCharBoundary_split hcb
      have htk : byteTake e.content e.cursor_position = a := by
        rw [hab, hcur]; exact byteTake_append a b
      have hdp : byteDrop e.content e.cursor_position = b := by
        rw [hab, hcur]; exact byteDrop_append a b
      rw [← happ]
      simp only [htk, hdp]
      rw [byteLen_append, byteLen_append]
      have : byteLen e.content = byteLen a + byteLen b := by
        rw [hab, byteLen_append]
      omega
    · rw [if_neg hcb] at happ
      exact absurd happ (by simp)
  | scrollBy a =>
    have he2 : e2 = e.scroll m a := by
      simpa [applyOp] using happ.symm
    subst he2
    cases a with
    | Up k => exact le_trans (scrollUpN_le e m k e.text_start_idx) h
    | Down k => exact scrollDownN_le e m k e.text_start_idx h
    | ToStart => exact Nat.zero_le _
    | ToEnd => exact le_trans (scrollUpN_le _ m 1 _) (Nat.sub_le _ _)

theorem applyOps_anchor_le (m : GlyphRasterizer) :
    ∀ (ops : List EditOp) (e e2 : TextEditor), e.text_start_idx ≤ byteLen e.content →
      applyOps m e ops = some e2 → e2.text_start_idx ≤ byteLen e2.content := by
  intro ops
  induction ops with
  | nil =>
    intro e e2 h happ
    cases happ
    exact h
  | cons op ops ih =>
    intro e e2 h happ
    simp only [applyOps] at happ
    obtain ⟨e1, hop, hrest⟩ := Option.bind_eq_some.mp happ
    exact ih e1 e2 (applyOp_anchor_le m e e1 op h hop) hrest

/-! ### `layout_lines` as a total function of the fuel -/

/-- With a positive font size the fueled loop produces a value, and
`layout_lines` returns exactly it. -/
theorem layout_lines_eq_some (e : TextEditor) (m : GlyphRasterizer) (hfs : 0 < e.font_size) :
    ∃ lines, layoutLinesGo e m (layoutFuel e) 0 e.text_start_idx = some lines ∧
      e.layout_lines m = lines := by
  have hspec := layoutFuel_spec e hfs
  have hsome := layoutLinesGo_isSome e m (layoutFuel e) 0 e.text_start_idx hspec.1
    (by have := hspec.2; linarith)
  obtain ⟨lines, hl⟩ := Option.isSome_iff_exists.mp hsome
  exact ⟨lines, hl, by rw [TextEditor.layout_lines, hl]; rfl⟩

/-- On an empty buffer every produced line is the empty range at the
running index, which never moves. -/
theorem layoutLinesGo_empty_content (e : TextEditor) (m : GlyphRasterizer)
    (hc : e.content = []) :
    ∀ (fuel : ℕ) (y : ℚ) (bi : ℕ) (lines : List (ℕ × ℕ × Bool)),
      layoutLinesGo e m fuel y bi = some lines → ∀ L ∈ lines, L = (bi, bi, false) := by
  intro fuel
  induction fuel with
  | zero => intro y bi lines h; exact absurd h (by simp [layoutLinesGo])
  | succ f ihf =>
    intro y bi lines hgo L hL
    have hline : e.layout_line m bi = (false, bi) := by
      rw [TextEditor.layout_line, hc]
      rfl
    simp only [layoutLinesGo, hline] at hgo
    by_cases hbrk : e.window_height ≤ y + lineHeight e
    · rw [if_pos hbrk] at hgo
      have : lines = [(bi, bi, false)] := (Option.some_inj.mp hgo).symm
      rw [this] at hL
      simpa using hL
    · rw [if_neg hbrk] at hgo
      obtain ⟨tl, hgtl, hcons⟩ := Option.map_eq_some'.mp hgo
      rw [← hcons] at hL
      rcases List.mem_cons.mp hL with h | h
      · exact h
      · exact ihf (y + lineHeight e) bi tl hgtl L h

/-- When the buffer holds no newline, all advances are nonnegative and the
total advance fits the width, the first produced line spans the whole
buffer. -/
theorem layout_lines_head_whole (e : TextEditor) (m : GlyphRasterizer)
    (hfs : 0 < e.font_size) (hanchor : e.text_start_idx = 0)
    (hnl : '\n' ∉ e.content) (hadv : ∀ c ∈ e.content, 0 ≤ advanceOf m e.font_size c)
    (hsum : sumAdv m e.font_size e.content < e.window_width) :
    (e.layout_lines m).head? = some (0, byteLen e.content, false) := by
  have hline : e.layout_line m 0 = (false, byteLen e.content) := by
    rw [TextEditor.layout_line, byteDrop_zero]
    have := layoutLineGo_all m e.font_size e.window_width e.content 0 0 hnl hadv
      (by simpa using hsum)
    simpa using this
  obtain ⟨lines, hgo, hll⟩ := layout_lines_eq_some e m hfs
  rw [hll]
  have hspec := layoutFuel_spec e hfs
  obtain ⟨f, hf⟩ : ∃ f, layoutFuel e = f + 1 :=
    ⟨layoutFuel e - 1, by omega⟩
  rw [hf, hanchor] at hgo
  simp only [layoutLinesGo, hline] at hgo
  by_cases hbrk : e.window_height ≤ 0 + lineHeight e
  · rw [if_pos hbrk] at hgo
    rw [← Option.some_inj.mp hgo]
    rfl
  · rw [if_neg hbrk] at hgo
    obtain ⟨tl, hgtl, hcons⟩ := Option.map_eq_some'.mp hgo
    rw [← hcons]
    rfl

/-! ## Claim theorems -/

/-- **C1** — the claim says `backspace()` scans back to the nearest char
boundary and deletes the whole one-character byte range `[boundary, cursor)`,
moving the cursor to the boundary.  The code computes that boundary into
`curr_pos` (here `prevCharBoundary ['é'] 2 = 0`) but never uses it: it
deletes only the single byte `cursor - 1 .. cursor` and decrements the
cursor by one.  On the two-byte char `'é'` with the cursor at `2`, that
byte range splits the codepoint, so the rope delete panics (modelled as
`none`) instead of deleting the character. -/
theorem backspace_one_byte_panics_on_multibyte :
    TextEditor.backspace ⟨['é'], 2, 0, 5, 100, 6⟩ = none ∧
    prevCharBoundary ['é'] 2 = 0 := by
  decide

/-- **C2** — the claim says `delete()` removes all UTF-8 bytes of the one
character at the cursor.  The code deletes exactly the byte range
`cursor .. cursor + 1`; on the two-byte char `'é'` at cursor `0` that
range splits the codepoint and the rope delete panics (`none`). -/
theorem delete_one_byte_panics_on_multibyte :
    TextEditor.delete (TextEditor.new ['é'] 100 6 5) = none := by
  decide

/-- **C3** (counterexample) — from a fresh editor, the sequence
`insert_text "ab"`, `scroll_down 1`, `backspace` leaves the viewport
anchor at `2` while the buffer length has shrunk to `1`: the claimed
invariant `anchor ≤ length` (with equality only on an empty buffer)
fails.  (The intermediate `scroll_down` already gives `anchor = 2 =
length` on the non-empty buffer `"ab"`, refuting the equality clause on
its own.) -/
theorem anchor_invariant_counterexample :
    Option.map (fun e2 => (e2.text_start_idx, byteLen e2.content))
      (Option.bind ((TextEditor.new [] 100 6 5).insert_text ['a', 'b'])
        (fun e1 => (e1.scroll_down m1 1).backspace)) = some (2, 1) := by
  norm_num +decide [TextEditor.insert_text, ropeInsert, isCharBoundary, byteTake, byteDrop,
    byteLen, TextEditor.scroll_down, scrollDownN, scrollDownStep, TextEditor.layout_line,
    layoutLineGo, advanceOf, m1, TextEditor.backspace, ropeDelete, TextEditor.new,
    Char.utf8Size]

/-- **C3** (amended) — starting from a freshly constructed editor, after
any sequence of `insert_text` and `scroll` calls that does not panic, the
viewport anchor satisfies `0 ≤ anchor ≤ buffer length` (it may equal the
length on a non-empty buffer).  `backspace`/`delete` do not re-clamp the
anchor and are excluded, and `scroll_up` can move the anchor off a char
boundary, so only the length bound survives of the claimed invariant. -/
theorem anchor_le_length_insert_scroll (m : GlyphRasterizer) (content : List Char)
    (W H fs : ℚ) (ops : List EditOp) (e2 : TextEditor)
    (h : applyOps m (TextEditor.new content W H fs) ops = some e2) :
    e2.text_start_idx ≤ byteLen e2.content :=
  applyOps_anchor_le m ops (TextEditor.new content W H fs) e2 (Nat.zero_le _) h

theorem anchor_le_length_insert_scroll_witness :
    applyOps m1 (TextEditor.new [] 100 6 5)
        [EditOp.insert ['a'], EditOp.scrollBy (ScrollAmount.Down 1)] =
      some ⟨['a'], 1, 1, 5, 100, 6⟩ ∧
    (⟨['a'], 1, 1, 5, 100, 6⟩ : TextEditor).text_start_idx ≤
      byteLen (⟨['a'], 1, 1, 5, 100, 6⟩ : TextEditor).content := by
  have happ : applyOps m1 (TextEditor.new [] 100 6 5)
      [EditOp.insert ['a'], EditOp.scrollBy (ScrollAmount.Down 1)] =
      some ⟨['a'], 1, 1, 5, 100, 6⟩ := by
    norm_num +decide [applyOps, applyOp, TextEditor.insert_text, ropeInsert, isCharBoundary,
      byteTake, byteDrop, byteLen, TextEditor.scroll, TextEditor.scroll_down, scrollDownN,
      scrollDownStep, TextEditor.layout_line, layoutLineGo, advanceOf, m1, TextEditor.new,
      Char.utf8Size]
  exact ⟨happ, anchor_le_length_insert_scroll m1 [] 100 6 5
    [EditOp.insert ['a'], EditOp.scrollBy (ScrollAmount.Down 1)] _ happ⟩

/-- **C4** — the claim says `scroll(Down 1)` then `scroll(Up 1)` restores
the anchor when the buffer has more wrapped lines than fit one screen and
`k` does not exceed the lines below/above.  On `"ab\ncd"` (two wrapped
lines, confirmed by the two `layout_line` conjuncts) with a one-line
screen (`layoutFuel = 1`) and `k = 1`, scrolling down moves the anchor to
`3` and scrolling back up lands on `1`, not `0`: `layout_line_rev`
reaches the buffer start and returns the slice `[start, len)` (the text
*after* the anchor, length `2`) instead of the preceding line `[0, 3)`,
so `scroll_up` retreats by the wrong amount. -/
theorem scroll_down_up_not_inverse :
    (TextEditor.new ['a', 'b', '\n', 'c', 'd'] 100 6 5).layout_line m1 0 = (true, 2) ∧
    (TextEditor.new ['a', 'b', '\n', 'c', 'd'] 100 6 5).layout_line m1 3 = (false, 5) ∧
    layoutFuel (TextEditor.new ['a', 'b', '\n', 'c', 'd'] 100 6 5) = 1 ∧
    (((TextEditor.new ['a', 'b', '\n', 'c', 'd'] 100 6 5).scroll m1
        (ScrollAmount.Down 1)).scroll m1 (ScrollAmount.Up 1)).text_start_idx = 1 := by
  refine ⟨?_, ?_, ?_, ?_⟩
  · norm_num +decide [TextEditor.layout_line, TextEditor.new, layoutLineGo, byteDrop,
      advanceOf, m1, Char.utf8Size]
  · norm_num +decide [TextEditor.layout_line, TextEditor.new, layoutLineGo, byteDrop,
      advanceOf, m1, Char.utf8Size]
  · norm_num [layoutFuel, lineHeight, TextEditor.new]
  · norm_num +decide [TextEditor.scroll, TextEditor.scroll_down, scrollDownN, scrollDownStep,
      TextEditor.scroll_up, scrollUpN, scrollUpStep, TextEditor.layout_line,
      TextEditor.layout_line_rev, TextEditor.new, layoutLineGo, layoutLineRevGo, byteDrop,
      byteTake, byteLen, advanceOf, m1, Char.utf8Size]

/-- **C5** — the claim says `layout_line_rev(start)` returns the line
ending at `start`, and in particular the range `[0, start)` when the
backward scan reaches the buffer start with no newline and no width stop.
On `"ab"` with `start = 1` the scan reaches the buffer start, and the
code returns the slice `byte_slice(start..)` — the range `[1, 2)`
(`"b"`, the text *after* `start`) — instead of `[0, 1)` (`"a"`),
contradicting the function's own comment. -/
theorem layout_line_rev_buffer_start_wrong_slice :
    (TextEditor.new ['a', 'b'] 100 6 5).layout_line_rev m1 1 = (false, 1, 2) := by
  norm_num +decide [TextEditor.layout_line_rev, TextEditor.new, layoutLineRevGo, byteTake,
    byteLen, advanceOf, m1, Char.utf8Size]

/-- **C6** (counterexample) — the claim says every `layout_lines` loop
iteration either consumes at least one byte or terminates the loop.  On
an empty buffer with a three-line-tall window, the first iteration
produces the empty line `(0, 0, false)` — consuming zero bytes — and the
break condition `y >= window_height` (`18 ≤ 0 + 6`) does not fire, so the
loop keeps running: it produces three zero-byte lines before stopping. -/
theorem layout_lines_iteration_consumes_nothing :
    (TextEditor.new [] 100 18 5).layout_line m1 0 = (false, 0) ∧
    ¬ ((TextEditor.new [] 100 18 5).window_height ≤
        0 + lineHeight (TextEditor.new [] 100 18 5)) ∧
    (TextEditor.new [] 100 18 5).layout_lines m1 =
      [(0, 0, false), (0, 0, false), (0, 0, false)] := by
  refine ⟨?_, ?_, ?_⟩
  · norm_num [TextEditor.layout_line, TextEditor.new, layoutLineGo, byteDrop]
  · norm_num [TextEditor.new, lineHeight]
  · norm_num [TextEditor.layout_lines, layoutFuel, lineHeight, TextEditor.new, layoutLinesGo,
      TextEditor.layout_line, layoutLineGo, byteDrop]

/-- **C6** (amended) — `layout_lines` terminates for every buffer
content, anchor and glyph-metrics provider whenever the font size is
positive: the loop breaks within `layoutFuel` iterations because each
iteration adds `font_size * 1.2` to `y` regardless of byte progress.
(An iteration need not consume any byte, see the counterexample.) -/
theorem layout_lines_terminates (e : TextEditor) (m : GlyphRasterizer)
    (hfs : 0 < e.font_size) :
    ∃ fuel, (layoutLinesGo e m fuel 0 e.text_start_idx).isSome = true :=
  ⟨layoutFuel e, by
    have hspec := layoutFuel_spec e hfs
    exact layoutLinesGo_isSome e m (layoutFuel e) 0 e.text_start_idx hspec.1
      (by have := hspec.2; linarith)⟩

theorem layout_lines_terminates_witness :
    (0 : ℚ) < (TextEditor.new ['a'] 100 6 5).font_size ∧
    ∃ fuel, (layoutLinesGo (TextEditor.new ['a'] 100 6 5) m1 fuel 0
      (TextEditor.new ['a'] 100 6 5).text_start_idx).isSome = true :=
  ⟨by norm_num [TextEditor.new],
    layout_lines_terminates (TextEditor.new ['a'] 100 6 5) m1 (by norm_num [TextEditor.new])⟩

/-- **C7** — for every buffer content laid out from a fresh editor
(anchor `0`), if every char advance is nonnegative and below the window
width and the viewport is tall enough to cover the whole buffer, then
concatenating all lines of `layout_lines` and re-inserting one newline
per newline-terminated line reconstructs the buffer exactly. -/
theorem layout_lines_round_trip (content : List Char) (m : GlyphRasterizer) (W H fs : ℚ)
    (hfs : 0 < fs)
    (hadv : ∀ c ∈ content, 0 ≤ advanceOf m fs c ∧ advanceOf m fs c < W)
    (htall : 1 ≤ byteLen content → ((byteLen content : ℚ) - 1) * (fs * (6 / 5)) < H) :
    reconstruct content ((TextEditor.new content W H fs).layout_lines m) = content := by
  set e := TextEditor.new content W H fs with he
  have hfs2 : 0 < e.font_size := hfs
  obtain ⟨lines, hgo, hll⟩ := layout_lines_eq_some e m hfs2
  rw [hll]
  exact layoutLinesGo_reconstruct e m hadv (lineHeight_pos hfs2) (layoutFuel e) 0 [] content
    lines rfl (fun h1 => by simpa [lineHeight, he, TextEditor.new] using htall h1) hgo

theorem layout_lines_round_trip_witness :
    (0 : ℚ) < 5 ∧
    reconstruct ['a', '\n', 'b']
      ((TextEditor.new ['a', '\n', 'b'] 100 100 5).layout_lines m1) = ['a', '\n', 'b'] :=
  ⟨by norm_num,
    layout_lines_round_trip ['a', '\n', 'b'] m1 100 100 5 (by norm_num)
      (fun c _ => ⟨by norm_num [advanceOf, m1], by norm_num [advanceOf, m1]⟩)
      (by
        intro h
        norm_num +decide [byteLen, Char.utf8Size])⟩

/-- **C8** — for every buffer content and every char-boundary start
offset, the end index returned by `layout_line` and both endpoints of the
byte range returned by `layout_line_rev` are char boundaries: neither
function ever splits a multi-byte codepoint. -/
theorem layout_line_boundaries (e : TextEditor) (m : GlyphRasterizer) (start : ℕ)
    (hs : isCharBoundary e.content start = true) :
    isCharBoundary e.content (e.layout_line m start).2 = true ∧
    isCharBoundary e.content (e.layout_line_rev m start).2.1 = true ∧
    isCharBoundary e.content (e.layout_line_rev m start).2.2 = true := by
  obtain ⟨A, B, hAB, hstart⟩ := isCharBoundary_split hs
  subst hstart
  have htake : byteTake e.content (byteLen A) = A := by
    rw [hAB]; exact byteTake_append A B
  have hrw : e.layout_line_rev m (byteLen A) =
      layoutLineRevGo m e.font_size (byteLen A) (byteLen e.content) A.reverse (byteLen A)
        e.window_width := by
    rw [TextEditor.layout_line_rev, htake]
  have hrev := layoutLineRevGo_boundary m e.font_size e.content (byteLen A) hs A.reverse
    e.window_width A B hAB rfl
  refine ⟨?_, ?_, ?_⟩
  · have hdrop : byteDrop e.content (byteLen A) = B := by
      rw [hAB]; exact byteDrop_append A B
    have hline : e.layout_line m (byteLen A) =
        layoutLineGo m e.font_size e.window_width B (byteLen A) 0 := by
      rw [TextEditor.layout_line, hdrop]
    rcases layoutLineGo_split m e.font_size e.window_width B (byteLen A) 0 with
      ⟨a, b, hl, heq⟩ | heq | ⟨a, c, b, hl, _, _, heq⟩
    · rw [hline, heq]
      have h2 : e.content = (A ++ a) ++ ('\n' :: b) := by rw [hAB, hl]; simp
      have h3 : byteLen A + byteLen a = byteLen (A ++ a) := (byteLen_append A a).symm
      rw [h2, h3]
      exact isCharBoundary_append _ _
    · rw [hline, heq]
      have h3 : byteLen A + byteLen B = byteLen e.content := by rw [hAB, byteLen_append]
      rw [h3]
      exact isCharBoundary_len e.content
    · rw [hline, heq]
      have h2 : e.content = (A ++ a) ++ (c :: b) := by rw [hAB, hl]; simp
      have h3 : byteLen A + byteLen a = byteLen (A ++ a) := (byteLen_append A a).symm
      rw [h2, h3]
      exact isCharBoundary_append _ _
  · rw [hrw]
    exact hrev.1
  · rw [hrw]
    exact hrev.2

theorem layout_line_boundaries_witness :
    isCharBoundary (TextEditor.new ['a', 'é'] 100 6 5).content 1 = true ∧
    (isCharBoundary (TextEditor.new ['a', 'é'] 100 6 5).content
        ((TextEditor.new ['a', 'é'] 100 6 5).layout_line m1 1).2 = true ∧
      isCharBoundary (TextEditor.new ['a', 'é'] 100 6 5).content
        ((TextEditor.new ['a', 'é'] 100 6 5).layout_line_rev m1 1).2.1 = true ∧
      isCharBoundary (TextEditor.new ['a', 'é'] 100 6 5).content
        ((TextEditor.new ['a', 'é'] 100 6 5).layout_line_rev m1 1).2.2 = true) :=
  ⟨by decide, layout_line_boundaries (TextEditor.new ['a', 'é'] 100 6 5) m1 1 (by decide)⟩

/-- **C9** (counterexample) — the claim says `layout_lines` on an empty
buffer returns zero lines.  The loop body always pushes a line before
checking the break condition, so an empty buffer with a one-line window
yields one (empty) line, not zero. -/
theorem layout_lines_empty_yields_one_line :
    (TextEditor.new [] 100 6 5).layout_lines m1 = [(0, 0, false)] ∧
    (TextEditor.new [] 100 6 5).layout_lines m1 ≠ [] := by
  have h : (TextEditor.new [] 100 6 5).layout_lines m1 = [(0, 0, false)] := by
    norm_num [TextEditor.layout_lines, layoutFuel, lineHeight, TextEditor.new, layoutLinesGo,
      TextEditor.layout_line, layoutLineGo, byteDrop]
  exact ⟨h, by rw [h]; simp⟩

/-- **C9** (amended) — on an empty buffer `layout_lines` returns at least
one line and every returned line is the empty range `(0, 0, false)`; on a
buffer with no newline whose total advance fits the window width, the
first returned line spans the whole buffer (further lines, if the window
is taller than one line, are empty). -/
theorem layout_lines_empty_and_short (content : List Char) (m : GlyphRasterizer)
    (W H fs : ℚ) (hfs : 0 < fs) :
    (content = [] → (TextEditor.new content W H fs).layout_lines m ≠ [] ∧
      ∀ L ∈ (TextEditor.new content W H fs).layout_lines m, L = (0, 0, false)) ∧
    ('\n' ∉ content → (∀ c ∈ content, 0 ≤ advanceOf m fs c) → sumAdv m fs content < W →
      ((TextEditor.new content W H fs).layout_lines m).head? =
        some (0, byteLen content, false)) := by
  set e := TextEditor.new content W H fs with he
  have hfs2 : 0 < e.font_size := hfs
  constructor
  · intro hc
    obtain ⟨lines, hgo, hll⟩ := layout_lines_eq_some e m hfs2
    rw [hll]
    refine ⟨layoutLinesGo_ne_nil e m _ _ _ _ hgo, ?_⟩
    intro L hL
    exact layoutLinesGo_empty_content e m hc (layoutFuel e) 0 e.text_start_idx lines hgo L hL
  · intro hnl hadv hsum
    exact layout_lines_head_whole e m hfs2 rfl hnl hadv hsum

theorem layout_lines_empty_and_short_witness :
    (0 : ℚ) < 5 ∧
    ((TextEditor.new ['a', 'b'] 100 6 5).layout_lines m1).head? =
      some (0, byteLen ['a', 'b'], false) :=
  ⟨by norm_num,
    (layout_lines_empty_and_short ['a', 'b'] m1 100 6 5 (by norm_num)).2
      (by decide) (fun c _ => by norm_num [advanceOf, m1])
      (by norm_num [sumAdv, advanceOf, m1])⟩

/-- **C10** — `insert_text(s)` inserts `s` at the cursor (a char
boundary, per the documented cursor invariant) and advances the cursor by
exactly the byte length of `s`, not its character count. -/
theorem insert_text_advances_by_bytes (e : TextEditor) (s : List Char)
    (h : isCharBoundary e.content e.cursor_position = true) :
    e.insert_text s = some { e with
      content := byteTake e.content e.cursor_position ++ s ++
        byteDrop e.content e.cursor_position,
      cursor_position := e.cursor_position + byteLen s } := by
  rw [TextEditor.insert_text, ropeInsert, if_pos h]
  rfl

/-- Witness for **C10**: mixed ASCII/multi-byte/emoji content
`['é', '🙂']` has byte length `2 + 4 = 6` but character count `2`; the
cursor moves from `1` to `1 + 6 = 7`. -/
theorem insert_text_advances_by_bytes_witness :
    isCharBoundary (⟨['a', 'é'], 1, 0, 5, 100, 6⟩ : TextEditor).content
      (⟨['a', 'é'], 1, 0, 5, 100, 6⟩ : TextEditor).cursor_position = true ∧
    TextEditor.insert_text (⟨['a', 'é'], 1, 0, 5, 100, 6⟩ : TextEditor) ['é', '🙂'] =
      some ⟨byteTake ['a', 'é'] 1 ++ ['é', '🙂'] ++ byteDrop ['a', 'é'] 1,
        1 + byteLen ['é', '🙂'], 0, 5, 100, 6⟩ :=
  ⟨by decide,
    insert_text_advances_by_bytes (⟨['a', 'é'], 1, 0, 5, 100, 6⟩ : TextEditor) ['é', '🙂']
      (by decide)⟩
